import Mathlib

/-!
Verification of `pytorch_fast_elmo/utils.py`.

Shallow embedding conventions:
* A *word* is modelled as the list of its UTF-8 bytes (`Word := List Nat`,
  each entry `< 256`); `str.encode('utf-8', 'ignore')` on a well-formed
  Python string is exactly this byte sequence.
* Integer tensors are modelled as (nested) lists; `torch.LongTensor` and
  `torch.stack` reject ragged input, which is modelled by the
  `torchLongTensor2` / `torchStack` constructors returning `Option`.
* Fallible Python code (a `raise`, a failing `assert`, a raising torch
  constructor) is modelled with `Option`: `none` is an exception.
* The external character-CNN encoder is opaque: it is a parameter
  `f : List Nat → α` mapping one padded char-ID row to one output vector,
  applied row-wise to 2D inputs, exactly as the spec's encoder interface
  (`(N, max_word_length) → (N, output_dim)`) prescribes.
* `pack_padded_sequence` / `pad_packed_sequence` (torch library functions)
  are modelled by their documented semantics for batch-first inputs whose
  lengths are given by the caller.
-/

namespace FastElmo

/-- Constants from `ElmoCharacterIdsConst` (from AllenNLP). -/
def MAX_WORD_LENGTH : Nat := 50

/-- Raw sentinel code for the beginning-of-sentence character. -/
def BEGINNING_OF_SENTENCE_CHARACTER : Nat := 256

/-- Raw sentinel code for the end-of-sentence character. -/
def END_OF_SENTENCE_CHARACTER : Nat := 257

/-- Raw sentinel code for the beginning-of-word character. -/
def BEGINNING_OF_WORD_CHARACTER : Nat := 258

/-- Raw sentinel code for the end-of-word character. -/
def END_OF_WORD_CHARACTER : Nat := 259

/-- Raw sentinel code for the padding character. -/
def PADDING_CHARACTER : Nat := 260

/-- A word, modelled as its UTF-8 byte sequence. -/
abbrev Word := List Nat

/-- UTF-8 bytes of the literal token `<S>`. -/
def bosWord : Word := [60, 83, 62]

/-- UTF-8 bytes of the literal token `</S>`. -/
def eosWord : Word := [60, 47, 83, 62]

/-- UTF-8 bytes of the literal token `<UNK>`. -/
def unkWord : Word := [60, 85, 78, 75, 62]

/-- The write loop of `make_padded_char_ids`: starting from `padded` and
write position `idx`, copy characters until the characters run out or
`idx` reaches `max_word_length` (the Python `for`/`break`).  Returns the
written buffer and the final value of `idx`. -/
def fillChars (max_word_length : Nat) : List Nat → List Nat → Nat → List Nat × Nat
  | [], padded, idx => (padded, idx)
  | char_id :: rest, padded, idx =>
    if max_word_length ≤ idx then (padded, idx)
    else fillChars max_word_length rest (padded.set idx char_id) (idx + 1)

/-- `make_padded_char_ids` (utils.py lines 101-121).  The Python default
arguments are `max_word_length = 50`, `padding_character = 261`,
`beginning_of_word_character = 259`, `end_of_word_character = 260`
(each sentinel already shifted by `+1`); callers below always pass them
explicitly.  Note: for `max_word_length = 0` the Python code raises
`IndexError` on `padded[0] = ...`; every theorem below assumes
`1 ≤ max_word_length`. -/
def make_padded_char_ids (char_ids : List Nat) (max_word_length : Nat)
    (padding_character : Nat) (beginning_of_word_character : Nat)
    (end_of_word_character : Nat) : List Nat :=
  let padded0 := (List.replicate max_word_length padding_character).set 0
    beginning_of_word_character
  let fp := fillChars max_word_length char_ids padded0 1
  fp.1.set (min fp.2 (max_word_length - 1)) end_of_word_character

/-- `make_bos` (utils.py lines 124-128): pad the single shifted
beginning-of-sentence character. -/
def make_bos (max_word_length : Nat) : List Nat :=
  make_padded_char_ids [BEGINNING_OF_SENTENCE_CHARACTER + 1] max_word_length
    (PADDING_CHARACTER + 1) (BEGINNING_OF_WORD_CHARACTER + 1) (END_OF_WORD_CHARACTER + 1)

/-- `make_eos` (utils.py lines 131-135). -/
def make_eos (max_word_length : Nat) : List Nat :=
  make_padded_char_ids [END_OF_SENTENCE_CHARACTER + 1] max_word_length
    (PADDING_CHARACTER + 1) (BEGINNING_OF_WORD_CHARACTER + 1) (END_OF_WORD_CHARACTER + 1)

/-- `word_to_char_ids` (utils.py lines 138-140): the `+1` shift applied to
every UTF-8 byte of the word. -/
def word_to_char_ids (word : Word) : List Nat :=
  word.map (fun char_id => char_id + 1)

/-- Per-word row of `batch_to_char_ids`: the `_WORD_TO_CHAR_IDS_EXCEPTION`
table special-cases the literal tokens `<S>` and `</S>`; every other word
goes through `word_to_char_ids` and `make_padded_char_ids` with the
default sentinel arguments. -/
def word_row (word : Word) (max_characters_per_token : Nat) : List Nat :=
  if word = bosWord then make_bos max_characters_per_token
  else if word = eosWord then make_eos max_characters_per_token
  else make_padded_char_ids (word_to_char_ids word) max_characters_per_token
    (PADDING_CHARACTER + 1) (BEGINNING_OF_WORD_CHARACTER + 1) (END_OF_WORD_CHARACTER + 1)

/-- Model of `torch.stack` on a list of 1D tensors: raises on an empty
list and on tensors of unequal length, otherwise the result is the list of
rows itself. -/
def torchStack {ρ : Type} : List (List ρ) → Option (List (List ρ))
  | [] => none
  | t :: rest =>
    if (t :: rest).all (fun r => r.length = t.length) then some (t :: rest) else none

/-- Model of `torch.LongTensor` applied to a nested Python list: requires
rectangular input (raises `ValueError` otherwise), and is the identity on
the rows when it succeeds. -/
def torchLongTensor2 (rows : List (List Nat)) : Option (List (List Nat)) :=
  if rows.all (fun r => r.length = (rows.headD []).length) then some rows else none

/-- `build_vocab2id` (utils.py lines 24-30): two `assert` statements, then
ids are assigned by `enumerate(vocab, start=1)`.  A failing `assert` is an
exception, hence `none`. -/
def build_vocab2id (vocab : List Word) : Option (List (Word × Nat)) :=
  if 3 < vocab.length then
    if vocab.take 3 = [bosWord, eosWord, unkWord] then
      some (vocab.enum.map (fun p => (p.2, p.1 + 1)))
    else none
  else none

/-- Python `dict.get` on the map built from key/value pairs, where a later
binding shadows an earlier one (dict-comprehension overwrite order). -/
def dictGet (d : List (Word × Nat)) (k : Word) : Option Nat :=
  (d.reverse.find? (fun p => p.1 == k)).map (fun p => p.2)

/-- `batch_to_char_ids` (utils.py lines 149-188).  Note `max_timesteps` is
the length of the FIRST sequence (`len(batch[0])`); on an empty batch the
Python code raises `IndexError` before anything else, a case no theorem
below exercises. -/
def batch_to_char_ids (batch : List (List Word)) (max_characters_per_token : Nat) :
    Option (List (List (List Nat))) := do
  let max_timesteps := (batch.headD []).length
  let zeros := List.replicate max_characters_per_token (0 : Nat)
  let rows ← batch.mapM (fun words => do
    let row := words.map (fun word => word_row word max_characters_per_token)
    torchStack (row ++ List.replicate (max_timesteps - row.length) zeros))
  torchStack rows

/-- `batch_to_word_ids` (utils.py lines 191-208): per-token vocabulary
lookup with UNK fallback index 3, right padding with 0, and the final
`torch.LongTensor` construction. -/
def batch_to_word_ids (batch : List (List Word)) (vocab2id : List (Word × Nat)) :
    Option (List (List Nat)) :=
  let max_timesteps := (batch.headD []).length
  let rows := batch.map (fun words =>
    let row := words.map (fun word => (dictGet vocab2id word).getD 3)
    row ++ List.replicate (max_timesteps - row.length) 0)
  torchLongTensor2 rows

/-- A tensor of statically unknown rank, as passed to
`get_lengths_of_zero_padded_batch`; the function only dispatches on
`dim()`, so ranks other than 2 and 3 are collapsed into `d1`/`d4`
representatives. -/
inductive Tensor where
  | d1 : List Int → Tensor
  | d2 : List (List Int) → Tensor
  | d3 : List (List (List Int)) → Tensor
  | d4 : List (List (List (List Int))) → Tensor

/-- `tensor.dim()`. -/
def Tensor.dim : Tensor → Nat
  | .d1 _ => 1
  | .d2 _ => 2
  | .d3 _ => 3
  | .d4 _ => 4

/-- 2D branch of `get_lengths_of_zero_padded_batch`:
`(inputs > 0).long().sum(dim=-1)`. -/
def lengths_2d (rows : List (List Int)) : List Nat :=
  rows.map (fun r => r.countP (fun x => decide (0 < x)))

/-- 3D branch of `get_lengths_of_zero_padded_batch`:
`((inputs > 0).long().sum(dim=-1) > 0).long().sum(dim=-1)`. -/
def lengths_3d (rows : List (List (List Int))) : List Nat :=
  rows.map (fun r => r.countP (fun t => t.any (fun x => decide (0 < x))))

/-- `get_lengths_of_zero_padded_batch` (utils.py lines 37-45): raises
`ValueError` unless the input is 2D or 3D. -/
def get_lengths_of_zero_padded_batch : Tensor → Option (List Nat)
  | .d2 rows => some (lengths_2d rows)
  | .d3 rows => some (lengths_3d rows)
  | _ => none

/-- `generate_mask_from_lengths` (utils.py lines 57-64):
`range_tensor[b][t] = t + 1` (cumulative sum of ones) and
`mask = (lengths.unsqueeze(1) >= range_tensor).long()`.  Broadcasting the
comparison requires `lengths.length = batch_size`; theorems assume it. -/
def generate_mask_from_lengths (batch_size : Nat) (max_timesteps : Nat)
    (lengths : List Int) : List (List Int) :=
  (List.range batch_size).map (fun b =>
    (List.range max_timesteps).map (fun (t : Nat) =>
      if ((t : Int) + 1) ≤ lengths.getD b 0 then 1 else 0))

/-- A `torch.nn.utils.rnn.PackedSequence`, generic in the per-timestep
element type `ρ` (a char-ID row on the way in, an encoder output vector on
the way out). -/
structure Packed (ρ : Type) where
  data : List ρ
  batch_sizes : List Nat

/-- Model of `pack_padded_sequence(inputs, lengths, batch_first=True)` for
a batch-first 3D tensor: timestep `t` contributes, in batch order, the
`t`-th element of every sequence whose length exceeds `t`; torch requires
`lengths` sorted descending, so the number of timesteps is `lengths[0]`. -/
def pack_padded_sequence {ρ : Type} (inputs : List (List ρ)) (lengths : List Nat) :
    Packed ρ :=
  { data := (List.range (lengths.headD 0)).flatMap (fun t =>
      (inputs.zip lengths).filterMap (fun p =>
        if t < p.2 then p.1.get? t else none))
    batch_sizes := (List.range (lengths.headD 0)).map (fun t =>
      lengths.countP (fun l => decide (t < l))) }

/-- `pack_inputs` (utils.py lines 48-54), specialised to the 3D char-ID
tensors the caching pipeline feeds it: the lengths are the 3D branch of
`get_lengths_of_zero_padded_batch` (here over `Nat` entries, as produced
by `batch_to_char_ids`). -/
def pack_inputs (inputs : List (List (List Nat))) : Packed (List Nat) :=
  let lengths := inputs.map (fun r => r.countP (fun t => t.any (fun x => decide (0 < x))))
  pack_padded_sequence inputs lengths

/-- Model of `pad_packed_sequence(pk, batch_first=True)`: rebuilds the
dense `(B, T, *)` tensor (padding with `padding_value`, torch's default
zero vector) and the per-sequence lengths. -/
def pad_packed_sequence {ρ : Type} (pk : Packed ρ) (padding_value : ρ) :
    List (List ρ) × List Nat :=
  let B := pk.batch_sizes.headD 0
  let T := pk.batch_sizes.length
  ( (List.range B).map (fun b =>
      (List.range T).map (fun t =>
        if b < pk.batch_sizes.getD t 0 then
          pk.data.getD ((pk.batch_sizes.take t).sum + b) padding_value
        else padding_value)),
    (List.range B).map (fun b => pk.batch_sizes.countP (fun s => decide (b < s))) )

/-- `unpack_outputs` (utils.py lines 67-85): pad the packed output and,
unless `skip_mask`, rebuild the validity mask from the recovered
lengths. -/
def unpack_outputs {ρ : Type} (pk : Packed ρ) (padding_value : ρ) (skip_mask : Bool) :
    List (List ρ) × Option (List (List Int)) :=
  let tl := pad_packed_sequence pk padding_value
  if skip_mask then (tl.1, none)
  else (tl.1, some (generate_mask_from_lengths tl.1.length (tl.1.headD []).length
    (tl.2.map (fun l => (l : Int)))))

/-- `get_bos_eos_token_repr` (utils.py lines 211-229): the opaque encoder
`f` is run on the 2-row tensor `[bos_ids, eos_ids]` (row-wise, per the
encoder interface), where the row width `boundary_width` models
`max(kernel sizes) + 3` read from the restorer's filter metadata. -/
def get_bos_eos_token_repr {α : Type} (f : List Nat → α) (boundary_width : Nat) : α × α :=
  let bos_ids := make_bos boundary_width
  let eos_ids := make_eos boundary_width
  let reprs := [bos_ids, eos_ids].map f
  (reprs.headD (f bos_ids), (reprs.drop 1).headD (f eos_ids))

/-- `range(0, len(l), k)` slicing of `cache_char_cnn_vocab`, via a fuel
argument (the list length) to keep the recursion structural; for
`1 ≤ k` each step takes `l.take k` and recurses on `l.drop k`.  Python
`range` raises for `k = 0`; theorems assume `1 ≤ k`. -/
def chunksOfFuel {β : Type} (k : Nat) : Nat → List β → List (List β)
  | _, [] => []
  | 0, l => [l]
  | fuel + 1, x :: xs => (x :: xs.take (k - 1)) :: chunksOfFuel k fuel (xs.drop (k - 1))

/-- Contiguous chunks of size `k` (the last chunk may be shorter). -/
def chunksOf {β : Type} (k : Nat) (l : List β) : List (List β) :=
  chunksOfFuel k l.length l

/-- `cache_char_cnn_vocab` (utils.py lines 232-301), with the external
pieces abstracted exactly as the spec's interfaces prescribe: the
restored encoder is the opaque row function `f`, the restorer's kernel
metadata is `boundary_width`, and the final HDF5 write is omitted (the
function returns the embedding matrix it would persist).  Everything in
between — chunking, `batch_to_char_ids` on the single-row batch, packing,
row-wise encoding, unpacking with `skip_mask`, `squeeze(0)` (`headD []`,
valid because the unpacked batch dimension is 1), concatenation, and the
overwrite of rows 0 and 1 with the boundary representations — follows the
source. -/
def cache_char_cnn_vocab {α : Type} (f : List Nat → α) (padding_value : α)
    (vocab : List Word) (max_characters_per_token : Nat) (boundary_width : Nat)
    (batch_size : Nat) : Option (List α) := do
  let cached ← (chunksOf batch_size vocab).mapM (fun batch => do
    let char_ids ← batch_to_char_ids [batch] max_characters_per_token
    let inputs := pack_inputs char_ids
    let output_data := inputs.data.map f
    let unpacked := unpack_outputs (Packed.mk output_data inputs.batch_sizes)
      padding_value true
    pure (unpacked.1.headD []))
  let combined := cached.flatten
  let reprs := get_bos_eos_token_repr f boundary_width
  pure ((combined.set 0 reprs.1).set 1 reprs.2)

/-- `batch.index_select(0, indices)` on a 3D tensor (every index must be
in range, which all theorems establish for the indices they use). -/
def index_select (batch : List (List (List Int))) (indices : List Nat) :
    List (List (List Int)) :=
  indices.map (fun i => batch.getD i [])

/-- `sort_batch_by_length` (utils.py lines 304-317).  `lengths.sort(0,
descending=True)` is modelled by an insertion sort of the index list
`range(len(batch))` keyed by descending length (torch returns the indices
of a correct sort; ties are unspecified and nothing below relies on
them); likewise `permutation_index.sort(0, descending=False)` yields
`restoration_index`. -/
def sort_batch_by_length (batch : List (List (List Int))) :
    List (List (List Int)) × List Nat × List Nat :=
  let lengths := lengths_3d batch
  let permutation_index := List.insertionSort
    (fun i j => lengths.getD j 0 ≤ lengths.getD i 0) (List.range batch.length)
  let sorted_batch := index_select batch permutation_index
  let restoration_index := List.insertionSort
    (fun i j => permutation_index.getD i 0 ≤ permutation_index.getD j 0)
    (List.range batch.length)
  (sorted_batch, permutation_index, restoration_index)

/-! Helper lemmas about the write loop of `make_padded_char_ids`. -/

theorem fillChars_length (m : Nat) (cs : List Nat) (p : List Nat) (i : Nat) :
    (fillChars m cs p i).1.length = p.length := by
  induction cs generalizing p i with
  | nil => rfl
  | cons c cs ih =>
    simp only [fillChars]
    split
    · rfl
    · rw [ih]; simp

theorem fillChars_idx (m : Nat) (cs : List Nat) (p : List Nat) (i : Nat) (h : i ≤ m) :
    (fillChars m cs p i).2 = min (i + cs.length) m := by
  induction cs generalizing p i with
  | nil => simp only [fillChars, List.length_nil]; omega
  | cons c cs ih =>
    simp only [fillChars]
    split
    · simp only [List.length_cons]; omega
    · rw [ih _ (i + 1) (by omega)]; simp only [List.length_cons]; omega

theorem take_succ_set (p : List Nat) (i c : Nat) (h : i < p.length) :
    (p.set i c).take (i + 1) = p.take i ++ [c] := by
  rw [List.set_eq_take_append_cons_drop, if_pos h, List.take_append_eq_append_take,
    List.take_of_length_le (by simp [Nat.le_of_lt h]),
    List.length_take, Nat.min_eq_left (Nat.le_of_lt h)]
  simp

theorem fillChars_eq (m : Nat) (cs : List Nat) (p : List Nat) (i : Nat)
    (hlen : i + cs.length ≤ p.length) (hm : p.length = m) :
    fillChars m cs p i = (p.take i ++ cs ++ p.drop (i + cs.length), i + cs.length) := by
  induction cs generalizing p i with
  | nil => simp [fillChars]
  | cons c cs ih =>
    have hi : i < p.length := by simp only [List.length_cons] at hlen; omega
    simp only [fillChars]
    rw [if_neg (by omega)]
    rw [ih (p.set i c) (i + 1) (by simp only [List.length_set, List.length_cons] at hlen ⊢; omega)
      (by simpa using hm)]
    rw [take_succ_set p i c hi, List.drop_set_of_lt c p (by omega)]
    simp only [List.length_cons]
    rw [show i + 1 + cs.length = i + (cs.length + 1) from by omega]
    simp [List.append_assoc]

/-- `(cs ++ y :: rest).set cs.length e = cs ++ e :: rest`. -/
theorem set_at_append (cs : List Nat) (y e : Nat) (rest : List Nat) :
    (cs ++ y :: rest).set cs.length e = cs ++ e :: rest := by
  induction cs with
  | nil => rfl
  | cons c cs ih => simp [ih]

/-- Closed form of `make_padded_char_ids` for inputs that fit: the
beginning-of-word marker, the characters, the end-of-word marker, then
padding. -/
theorem make_padded_char_ids_closed (cs : List Nat) (m p b e : Nat)
    (h : cs.length + 2 ≤ m) :
    make_padded_char_ids cs m p b e =
      b :: cs ++ e :: List.replicate (m - cs.length - 2) p := by
  have hm2 : 2 ≤ m := by omega
  obtain ⟨m', rfl⟩ : ∃ m', m = m' + 1 := ⟨m - 1, by omega⟩
  have hrep : (List.replicate (m' + 1) p).set 0 b = b :: List.replicate m' p := by
    simp [List.replicate_succ]
  simp only [make_padded_char_ids]
  rw [hrep]
  rw [fillChars_eq _ cs _ 1 (by simp; omega) (by simp)]
  dsimp only
  have h1 : (b :: List.replicate m' p).take 1 = [b] := by simp
  have h2 : (b :: List.replicate m' p).drop (1 + cs.length) =
      List.replicate (m' - cs.length) p := by
    rw [show 1 + cs.length = cs.length + 1 from by omega, List.drop_succ_cons]
    simp [List.drop_replicate]
  rw [h1, h2]
  rw [show min (1 + cs.length) (m' + 1 - 1) = cs.length + 1 from by omega]
  obtain ⟨k, hk⟩ : ∃ k, m' - cs.length = k + 1 := ⟨m' - cs.length - 1, by omega⟩
  rw [hk, List.replicate_succ]
  have : ([b] ++ cs ++ p :: List.replicate k p).set (cs.length + 1) e =
      (b :: cs) ++ e :: List.replicate k p := by
    have h3 := set_at_append (b :: cs) p e (List.replicate k p)
    simp at h3
    simp [h3]
  rw [this]
  have : m' + 1 - cs.length - 2 = k := by omega
  rw [this]

/-- Output length of `make_padded_char_ids` is always `max_word_length`
(in the model this also holds at `max_word_length = 0`, where the Python
code instead raises `IndexError`). -/
theorem make_padded_char_ids_length (cs : List Nat) (m p b e : Nat) :
    (make_padded_char_ids cs m p b e).length = m := by
  unfold make_padded_char_ids
  simp [fillChars_length]

/-- The end-of-word marker always lands at `min idx (max_word_length - 1)`,
an in-range slot whenever `1 ≤ max_word_length`; hence it is an element of
the output. -/
theorem make_padded_char_ids_mem_end (cs : List Nat) (m p b e : Nat) (h : 1 ≤ m) :
    e ∈ make_padded_char_ids cs m p b e := by
  have hlen : (fillChars m cs ((List.replicate m p).set 0 b) 1).1.length = m := by
    simp [fillChars_length]
  have hget : (make_padded_char_ids cs m p b e)[min
      (fillChars m cs ((List.replicate m p).set 0 b) 1).2 (m - 1)]? = some e := by
    simp only [make_padded_char_ids]
    exact List.getElem?_set_self (by rw [hlen]; omega)
  exact List.getElem?_mem hget

/-- C2.  For every word `w` (as UTF-8 bytes) with `len(w) + 2 ≤
max_word_length`, the padded representation of `word_to_char_ids w` has
the beginning-of-word marker at index 0, byte `w[i] + 1` at index `i + 1`
for each `i < len(w)`, the end-of-word marker at index `len(w) + 1`, and
the padding marker at every remaining index below `max_word_length`. -/
theorem padded_word_layout (w : Word) (m p b e : Nat) (h : w.length + 2 ≤ m) :
    (make_padded_char_ids (word_to_char_ids w) m p b e)[0]? = some b ∧
    (∀ i, (hi : i < w.length) →
      (make_padded_char_ids (word_to_char_ids w) m p b e)[i + 1]? =
        some (w.get ⟨i, hi⟩ + 1)) ∧
    (make_padded_char_ids (word_to_char_ids w) m p b e)[w.length + 1]? = some e ∧
    (∀ j, w.length + 2 ≤ j → j < m →
      (make_padded_char_ids (word_to_char_ids w) m p b e)[j]? = some p) := by
  have hcs : (word_to_char_ids w).length = w.length := by simp [word_to_char_ids]
  rw [make_padded_char_ids_closed _ _ _ _ _ (by omega)]
  refine ⟨?_, ?_, ?_, ?_⟩
  · rw [List.getElem?_append_left (by simp)]
    simp
  · intro i hi
    rw [List.getElem?_append_left (by simp [hcs]; omega), List.getElem?_cons_succ]
    simp [word_to_char_ids, List.getElem?_eq_getElem hi]
  · rw [List.getElem?_append_right (by simp [hcs])]
    simp [hcs]
  · intro j hj hjm
    rw [List.getElem?_append_right (by simp [hcs]; omega)]
    have hsub : j - (b :: word_to_char_ids w).length = (j - w.length - 2) + 1 := by
      simp only [List.length_cons, hcs]; omega
    rw [hsub, List.getElem?_cons_succ, List.getElem?_replicate, if_pos (by omega)]

/-- Witness for C2 at the two-byte word "hi" (`[104, 105]`) with the
default marker values and `max_word_length = 6`. -/
theorem padded_word_layout_witness :
    [104, 105].length + 2 ≤ 6 ∧
      (make_padded_char_ids (word_to_char_ids [104, 105]) 6 261 259 260)[3]? = some 260 :=
  ⟨by decide, (padded_word_layout [104, 105] 6 261 259 260 (by decide)).2.2.1⟩

/-- C7.  `make_padded_char_ids` returns exactly `max_word_length` entries
for every input (including empty and overlong inputs), and once the input
has length at least `max_word_length - 1` it is silently truncated, with
the end-of-word marker stored in the last slot, index
`max_word_length - 1`. -/
theorem make_padded_char_ids_total_length (cs : List Nat) (m p b e : Nat) (h : 1 ≤ m) :
    (make_padded_char_ids cs m p b e).length = m ∧
    (m - 1 ≤ cs.length →
      (make_padded_char_ids cs m p b e)[m - 1]? = some e) := by
  refine ⟨make_padded_char_ids_length cs m p b e, fun htrunc => ?_⟩
  simp only [make_padded_char_ids]
  have hlen : (fillChars m cs ((List.replicate m p).set 0 b) 1).1.length = m := by
    simp [fillChars_length]
  have hidx : (fillChars m cs ((List.replicate m p).set 0 b) 1).2 = min (1 + cs.length) m :=
    fillChars_idx m cs _ 1 (by omega)
  have : min (fillChars m cs ((List.replicate m p).set 0 b) 1).2 (m - 1) = m - 1 := by
    rw [hidx]; omega
  rw [this, List.getElem?_set_self (by omega)]

/-- Witness for C7: an input of length 6 against `max_word_length = 4`
keeps only 3 characters and stores the end marker at index 3. -/
theorem make_padded_char_ids_total_length_witness :
    1 ≤ 4 ∧ (make_padded_char_ids [9, 8, 7, 6, 5, 4] 4 261 259 260).length = 4 ∧
      (make_padded_char_ids [9, 8, 7, 6, 5, 4] 4 261 259 260)[3]? = some 260 :=
  ⟨by decide,
    (make_padded_char_ids_total_length [9, 8, 7, 6, 5, 4] 4 261 259 260 (by decide)).1,
    (make_padded_char_ids_total_length [9, 8, 7, 6, 5, 4] 4 261 259 260 (by decide)).2
      (by decide)⟩

/-- C10.  With `max_word_length = 1` the end-of-word assignment overwrites
the beginning-of-word marker written to slot 0: the output is exactly the
one-element list holding the end-of-word marker, so (whenever the two
markers differ) no beginning-of-word marker occurs in it. -/
theorem make_padded_char_ids_one (cs : List Nat) (p b e : Nat) :
    make_padded_char_ids cs 1 p b e = [e] ∧
      (b ≠ e → b ∉ make_padded_char_ids cs 1 p b e) := by
  have h1 : make_padded_char_ids cs 1 p b e = [e] := by
    unfold make_padded_char_ids
    cases cs with
    | nil => rfl
    | cons c rest => rfl
  exact ⟨h1, fun hne => by rw [h1]; simp [hne]⟩

/-- Witness for C10 with the default marker values (`259 ≠ 260`). -/
theorem make_padded_char_ids_one_witness :
    make_padded_char_ids [5, 6] 1 261 259 260 = [260] ∧
      (259 ≠ 260 ∧ 259 ∉ make_padded_char_ids [5, 6] 1 261 259 260) :=
  ⟨(make_padded_char_ids_one [5, 6] 261 259 260).1,
    by decide,
    (make_padded_char_ids_one [5, 6] 261 259 260).2 (by decide)⟩

/-- C6.  For every `batch_size`, `max_timesteps` and integer length
vector of matching size (the broadcast in the source requires
`lengths.length = batch_size`), the generated mask has `mask[b][t] = 1`
iff `t < lengths[b]` and `0` otherwise; in particular
`generate_mask_from_lengths 2 4 [3, 1] = [[1,1,1,0],[1,0,0,0]]`. -/
theorem generate_mask_from_lengths_spec (batch_size max_timesteps : Nat)
    (lengths : List Int) (_h : lengths.length = batch_size) :
    (∀ b t, b < batch_size → t < max_timesteps →
      ((generate_mask_from_lengths batch_size max_timesteps lengths).getD b []).getD t 0 =
        if (t : Int) < lengths.getD b 0 then 1 else 0) ∧
    generate_mask_from_lengths 2 4 [3, 1] = [[1, 1, 1, 0], [1, 0, 0, 0]] := by
  constructor
  · intro b t hb ht
    have hrow : (generate_mask_from_lengths batch_size max_timesteps lengths).getD b [] =
        (List.range max_timesteps).map (fun (u : Nat) =>
          if ((u : Int) + 1) ≤ lengths.getD b 0 then 1 else 0) := by
      unfold generate_mask_from_lengths
      rw [List.getD_eq_getElem?_getD, List.getElem?_eq_getElem (by simpa using hb),
        Option.getD_some, List.getElem_map, List.getElem_range]
    rw [hrow, List.getD_eq_getElem?_getD, List.getElem?_eq_getElem (by simpa using ht),
      Option.getD_some, List.getElem_map, List.getElem_range]
    exact if_congr (by omega) rfl rfl
  · decide

/-- Witness for C6: the concrete mask example, the hypothesis discharged
at `lengths = [3, 1]`. -/
theorem generate_mask_from_lengths_spec_witness :
    generate_mask_from_lengths 2 4 [3, 1] = [[1, 1, 1, 0], [1, 0, 0, 0]] :=
  (generate_mask_from_lengths_spec 2 4 [3, 1] rfl).2

/-- C8 (amended).  The first-three-entries contract is in fact checked by
`build_vocab2id`'s `assert` statements: building succeeds exactly when the
vocabulary has more than three entries and starts with `<S>`, `</S>`,
`<UNK>`; on success, entry `i` is mapped to id `i + 1`. -/
theorem build_vocab2id_asserts (vocab : List Word) :
    ((build_vocab2id vocab).isSome ↔
      3 < vocab.length ∧ vocab.take 3 = [bosWord, eosWord, unkWord]) ∧
    (∀ m, build_vocab2id vocab = some m →
      m.length = vocab.length ∧
      ∀ i, (hi : i < vocab.length) →
        m.getD i ([], 0) = (vocab.get ⟨i, hi⟩, i + 1)) := by
  constructor
  · unfold build_vocab2id
    split
    · split
      · simp only [Option.isSome_some, true_iff]
        exact ⟨by assumption, by assumption⟩
      · simp only [Option.isSome_none, Bool.false_eq_true, false_iff]
        intro hc
        exact absurd hc.2 (by assumption)
    · simp only [Option.isSome_none, Bool.false_eq_true, false_iff]
      intro hc
      exact absurd hc.1 (by assumption)
  · intro m hm
    have hm2 : m = vocab.enum.map (fun p => (p.2, p.1 + 1)) := by
      unfold build_vocab2id at hm
      split at hm
      · split at hm
        · exact (Option.some.injEq _ _ ▸ hm).symm
        · exact absurd hm (by simp)
      · exact absurd hm (by simp)
    subst hm2
    constructor
    · simp [List.enum_length]
    · intro i hi
      rw [List.getD_eq_getElem?_getD,
        List.getElem?_eq_getElem (by simp [List.enum_length, hi])]
      simp [List.getElem_enum]

/-- Witness for C8's amended theorem at a four-entry vocabulary obeying
the contract. -/
theorem build_vocab2id_asserts_witness :
    (build_vocab2id [bosWord, eosWord, unkWord, [97]]).isSome = true ∧
    ([(bosWord, 1), (eosWord, 2), (unkWord, 3), ([97], 4)] :
      List (Word × Nat)).getD 3 ([], 0) = ([97], 4) :=
  ⟨(build_vocab2id_asserts [bosWord, eosWord, unkWord, [97]]).1.mpr
      ⟨by decide, by decide⟩,
    ((build_vocab2id_asserts [bosWord, eosWord, unkWord, [97]]).2
      [(bosWord, 1), (eosWord, 2), (unkWord, 3), ([97], 4)] (by decide)).2 3 (by decide)⟩

/-- Counterexample to C8 as stated: `build_vocab2id` does NOT succeed for
every vocabulary list — on a four-entry list whose first three entries
are not `<S>`, `</S>`, `<UNK>` the `assert` on the leading entries fails
(an `AssertionError`). -/
theorem build_vocab2id_unchecked_counterexample :
    build_vocab2id [[97], [98], [99], [100]] = none := by decide

/-- C4 (amended).  `get_lengths_of_zero_padded_batch` succeeds exactly on
2D and 3D tensors — per row it counts positions with value `> 0` (2D)
resp. timesteps with any inner value `> 0` (3D) — and raises the shape
error otherwise.  (The spec's further claim that this is the only error
actively raised by the core fails: `build_vocab2id`'s assertions also
raise, see the counterexample.) -/
theorem get_lengths_of_zero_padded_batch_spec (t : Tensor) :
    ((get_lengths_of_zero_padded_batch t).isSome ↔ t.dim = 2 ∨ t.dim = 3) ∧
    (∀ rows, t = Tensor.d2 rows →
      get_lengths_of_zero_padded_batch t =
        some (rows.map (fun r => r.countP (fun x => decide (0 < x))))) ∧
    (∀ rows, t = Tensor.d3 rows →
      get_lengths_of_zero_padded_batch t =
        some (rows.map (fun r => r.countP (fun ts => ts.any (fun x => decide (0 < x)))))) := by
  cases t <;>
    simp [get_lengths_of_zero_padded_batch, Tensor.dim, lengths_2d, lengths_3d]

/-- Witness for C4's amended theorem: a concrete 2D tensor with a
negative entry (which does not count toward the length). -/
theorem get_lengths_of_zero_padded_batch_spec_witness :
    get_lengths_of_zero_padded_batch (Tensor.d2 [[1, 0, -3], [2, 5, 0]]) = some [1, 2] :=
  ((get_lengths_of_zero_padded_batch_spec (Tensor.d2 [[1, 0, -3], [2, 5, 0]])).2.1
    [[1, 0, -3], [2, 5, 0]] rfl).trans (by decide)

/-- Counterexample to C4 as stated: the shape error is not the only error
actively raised by the shown core — `build_vocab2id` raises an
`AssertionError` on a three-entry vocabulary (while the shape error
itself behaves as described). -/
theorem only_shape_error_counterexample :
    build_vocab2id [[97], [98], [99]] = none ∧
    (get_lengths_of_zero_padded_batch (Tensor.d1 [])).isSome = false :=
  ⟨rfl, rfl⟩

/-! Helper lemmas about the modelled torch constructors and `mapM`. -/

theorem torchStack_ok {ρ : Type} (t0 : List ρ) (rest : List (List ρ))
    (h : ∀ r ∈ t0 :: rest, r.length = t0.length) :
    torchStack (t0 :: rest) = some (t0 :: rest) := by
  simp only [torchStack]
  rw [if_pos]
  exact List.all_eq_true.mpr (fun r hr => decide_eq_true (h r hr))

theorem torchStack_some {ρ : Type} (ts rs : List (List ρ)) (h : torchStack ts = some rs) :
    rs = ts := by
  cases ts with
  | nil => simp [torchStack] at h
  | cons t rest =>
    simp only [torchStack] at h
    split at h
    · exact (Option.some_inj.mp h).symm
    · simp at h

theorem torchStack_none {ρ : Type} (t0 : List ρ) (rest : List (List ρ)) (r : List ρ)
    (hmem : r ∈ t0 :: rest) (hne : r.length ≠ t0.length) :
    torchStack (t0 :: rest) = none := by
  simp only [torchStack]
  rw [if_neg]
  intro hall
  exact hne (of_decide_eq_true (List.all_eq_true.mp hall r hmem))

theorem torchLongTensor2_none (rows : List (List Nat)) (r : List Nat)
    (hmem : r ∈ rows) (hne : r.length ≠ (rows.headD []).length) :
    torchLongTensor2 rows = none := by
  unfold torchLongTensor2
  rw [if_neg]
  intro hall
  exact hne (of_decide_eq_true (List.all_eq_true.mp hall r hmem))

theorem mapM_option_spec {β γ : Type} (f : β → Option γ) (l : List β) (rs : List γ)
    (h : l.mapM f = some rs) :
    rs.length = l.length ∧ ∀ i : Nat, (l[i]?.bind f) = rs[i]? := by
  induction l generalizing rs with
  | nil =>
    simp only [List.mapM_nil, pure, Option.some.injEq] at h
    subst h
    simp
  | cons a l ih =>
    rw [List.mapM_cons] at h
    cases hfa : f a with
    | none => rw [hfa] at h; simp at h
    | some b =>
      rw [hfa] at h
      cases hml : l.mapM f with
      | none => rw [hml] at h; simp at h
      | some bs =>
        rw [hml] at h
        simp at h
        subst h
        obtain ⟨hlen, hidx⟩ := ih bs hml
        refine ⟨by simp [hlen], ?_⟩
        intro i
        cases i with
        | zero => simp [hfa]
        | succ i => simpa using hidx i

/-- C5.  For every non-empty batch whose first sequence is the longest,
`batch_to_word_ids` succeeds and returns a `(len(batch), len(batch[0]))`
tensor holding the vocabulary id of each present word, the fixed UNK
index 3 for absent words, and `0` at every right-padding position. -/
theorem batch_to_word_ids_spec (batch : List (List Word)) (vocab2id : List (Word × Nat))
    (h1 : batch ≠ []) (h2 : ∀ s ∈ batch, s.length ≤ (batch.headD []).length) :
    (batch_to_word_ids batch vocab2id).isSome ∧
    ((batch_to_word_ids batch vocab2id).getD []).length = batch.length ∧
    (∀ i, (hi : i < batch.length) →
      (((batch_to_word_ids batch vocab2id).getD []).getD i []).length =
        (batch.headD []).length ∧
      ∀ j, j < (batch.headD []).length →
        (((batch_to_word_ids batch vocab2id).getD []).getD i []).getD j 0 =
          if hjl : j < (batch.get ⟨i, hi⟩).length
          then (dictGet vocab2id ((batch.get ⟨i, hi⟩).get ⟨j, hjl⟩)).getD 3
          else 0) := by
  obtain ⟨b0, bt, rfl⟩ := List.exists_cons_of_ne_nil h1
  simp only [List.headD_cons] at h2 ⊢
  have hrowlen : ∀ s ∈ b0 :: bt,
      ((s.map (fun w => (dictGet vocab2id w).getD 3)) ++
        List.replicate (b0.length - s.length) 0).length = b0.length := by
    intro s hs
    have := h2 s hs
    simp only [List.length_append, List.length_map, List.length_replicate]
    omega
  have heq : batch_to_word_ids (b0 :: bt) vocab2id =
      some ((b0 :: bt).map (fun words =>
        (words.map (fun w => (dictGet vocab2id w).getD 3)) ++
          List.replicate (b0.length - words.length) 0)) := by
    unfold batch_to_word_ids torchLongTensor2
    simp only [List.headD_cons, List.length_map]
    rw [if_pos]
    apply List.all_eq_true.mpr
    intro r hr
    apply decide_eq_true
    obtain ⟨s, hs, rfl⟩ := List.mem_map.mp hr
    simp only [List.map_cons, List.headD_cons]
    rw [hrowlen s hs, hrowlen b0 (by simp)]
  rw [heq]
  refine ⟨rfl, by simp, ?_⟩
  intro i hi
  have hrow : ((some ((b0 :: bt).map (fun words =>
      (words.map (fun w => (dictGet vocab2id w).getD 3)) ++
        List.replicate (b0.length - words.length) 0)) :
      Option (List (List Nat))).getD []).getD i [] =
      (((b0 :: bt).get ⟨i, hi⟩).map (fun w => (dictGet vocab2id w).getD 3)) ++
        List.replicate (b0.length - ((b0 :: bt).get ⟨i, hi⟩).length) 0 := by
    rw [Option.getD_some, List.getD_eq_getElem?_getD,
      List.getElem?_eq_getElem (by simpa using hi), Option.getD_some, List.getElem_map]
    simp [List.get_eq_getElem]
  rw [hrow]
  have hslen := h2 ((b0 :: bt).get ⟨i, hi⟩) (List.get_mem _ _ _)
  refine ⟨by simp only [List.length_append, List.length_map, List.length_replicate]; omega, ?_⟩
  intro j hj
  by_cases hjl : j < ((b0 :: bt).get ⟨i, hi⟩).length
  · rw [dif_pos hjl, List.getD_eq_getElem?_getD,
      List.getElem?_append_left (by simpa using hjl), List.getElem?_map,
      List.getElem?_eq_getElem hjl]
    simp [List.get_eq_getElem]
  · rw [dif_neg hjl, List.getD_eq_getElem?_getD,
      List.getElem?_append_right (by simp only [List.length_map]; omega),
      List.getElem?_replicate]
    rw [if_pos (by simp only [List.length_map]; omega)]
    rfl

/-- Witness for C5 at the claim's example: batch `[["the","cat"],["dog"]]`
(as UTF-8 bytes) with `"dog"` absent from the vocabulary: row 1 is
`[3, 0]` (UNK then padding). -/
theorem batch_to_word_ids_spec_witness :
    (batch_to_word_ids [[[116, 104, 101], [99, 97, 116]], [[100, 111, 103]]]
      [([116, 104, 101], 4), ([99, 97, 116], 5)]).isSome ∧
    (((batch_to_word_ids [[[116, 104, 101], [99, 97, 116]], [[100, 111, 103]]]
      [([116, 104, 101], 4), ([99, 97, 116], 5)]).getD []).getD 1 []).getD 0 0 = 3 ∧
    (((batch_to_word_ids [[[116, 104, 101], [99, 97, 116]], [[100, 111, 103]]]
      [([116, 104, 101], 4), ([99, 97, 116], 5)]).getD []).getD 1 []).getD 1 0 = 0 :=
  ⟨(batch_to_word_ids_spec _ _ (by decide) (by decide)).1,
    (((batch_to_word_ids_spec [[[116, 104, 101], [99, 97, 116]], [[100, 111, 103]]]
        [([116, 104, 101], 4), ([99, 97, 116], 5)] (by decide) (by decide)).2.2 1
        (by decide)).2 0 (by decide)).trans (by decide),
    (((batch_to_word_ids_spec [[[116, 104, 101], [99, 97, 116]], [[100, 111, 103]]]
        [([116, 104, 101], 4), ([99, 97, 116], 5)] (by decide) (by decide)).2.2 1
        (by decide)).2 1 (by decide)).trans (by decide)⟩

/-- C9 (amended).  Neither function checks the sorted-by-descending-length
precondition, but on every batch violating it (some sequence strictly
longer than `batch[0]`) the resulting rows are ragged and the final
tensor constructor raises — `torch.LongTensor` in `batch_to_word_ids`,
`torch.stack` in `batch_to_char_ids` — so the call raises rather than
returning a (truncated or misaligned) tensor. -/
theorem unsorted_batch_raises (batch : List (List Word)) (vocab2id : List (Word × Nat))
    (mct : Nat) (_hmct : 1 ≤ mct)
    (hviol : ∃ s ∈ batch, (batch.headD []).length < s.length) :
    batch_to_word_ids batch vocab2id = none ∧ batch_to_char_ids batch mct = none := by
  obtain ⟨s, hs, hlong⟩ := hviol
  have h1 : batch ≠ [] := by
    intro he
    subst he
    simp at hs
  obtain ⟨b0, bt, rfl⟩ := List.exists_cons_of_ne_nil h1
  simp only [List.headD_cons] at hlong
  constructor
  · simp only [batch_to_word_ids, List.headD_cons, List.length_map]
    apply torchLongTensor2_none _
      ((s.map (fun word => (dictGet vocab2id word).getD 3)) ++
        List.replicate (b0.length - s.length) 0)
    · exact List.mem_map_of_mem _ hs
    · simp only [List.map_cons, List.headD_cons, List.length_append, List.length_map,
        List.length_replicate]
      omega
  · have hchar : batch_to_char_ids (b0 :: bt) mct =
        ((b0 :: bt).mapM (fun words =>
          torchStack ((words.map (fun word => word_row word mct)) ++
            List.replicate (b0.length - words.length)
              (List.replicate mct (0 : Nat))))).bind torchStack := by
      simp only [batch_to_char_ids, List.headD_cons, List.length_map]
      rfl
    rw [hchar]
    cases hm : (b0 :: bt).mapM (fun words =>
        torchStack ((words.map (fun word => word_row word mct)) ++
          List.replicate (b0.length - words.length)
            (List.replicate mct (0 : Nat)))) with
    | none => rfl
    | some rows =>
      simp only [Option.some_bind]
      obtain ⟨hlen, hidx⟩ := mapM_option_spec _ _ _ hm
      cases rows with
      | nil => simp at hlen
      | cons r0 rest =>
        have h0 := hidx 0
        simp only [List.getElem?_cons_zero, Option.some_bind] at h0
        have hr0len : r0.length = b0.length := by
          rw [torchStack_some _ _ h0]
          simp [Nat.sub_self]
        obtain ⟨k, hk, hks⟩ := List.getElem_of_mem hs
        have hkk := hidx k
        rw [List.getElem?_eq_getElem hk, Option.some_bind, hks] at hkk
        have hkrows : k < (r0 :: rest).length := by
          rw [hlen]
          exact hk
        rw [List.getElem?_eq_getElem hkrows] at hkk
        have hrk := torchStack_some _ _ hkk
        apply torchStack_none r0 rest ((r0 :: rest).get ⟨k, hkrows⟩)
        · exact List.get_mem _ _ _
        · rw [List.get_eq_getElem, hrk, hr0len]
          simp only [List.length_append, List.length_map, List.length_replicate]
          omega

/-- Witness for C9's amended theorem at a concrete precondition-violating
batch (second sequence longer than the first). -/
theorem unsorted_batch_raises_witness :
    batch_to_word_ids [[[104]], [[105], [106]]] [([104], 4)] = none ∧
    batch_to_char_ids [[[104]], [[105], [106]]] 2 = none :=
  unsorted_batch_raises [[[104]], [[105], [106]]] [([104], 4)] 2 (by decide)
    ⟨[[105], [106]], by decide, by decide⟩

/-- Counterexample to C9 as stated: on the violating batch
`[["a"], ["a", "b"]]` both assemblers raise (return `none` in the model)
instead of returning a tensor. -/
theorem unsorted_batch_counterexample :
    batch_to_word_ids [[[97]], [[97], [98]]] [] = none ∧
    batch_to_char_ids [[[97]], [[97], [98]]] 5 = none := by
  decide

/-! Helper lemmas for `sort_batch_by_length`. -/

theorem map_getD_range {δ : Type} (l : List δ) (d : δ) (n : Nat) (h : l.length = n) :
    (List.range n).map (fun i => l.getD i d) = l := by
  apply List.ext_getElem
  · simp [h]
  · intro i h1 h2
    rw [List.getElem_map, List.getElem_range, List.getD_eq_getElem l d h2]

/-- Core permutation argument: for any permutation `perm` of
`range rows.length`, ascending argsort of `perm` is its inverse, and
selecting the permuted rows by that inverse restores `rows`. -/
theorem restore_by_inverse {δ : Type} (rows : List δ) (d : δ) (perm : List Nat)
    (hperm : perm.Perm (List.range rows.length)) :
    ((List.insertionSort (fun i j => perm.getD i 0 ≤ perm.getD j 0)
        (List.range rows.length)).map
      (fun i => (perm.map (fun j => rows.getD j d)).getD i d) = rows) ∧
    (∀ k, k < rows.length →
      perm.getD ((List.insertionSort (fun i j => perm.getD i 0 ≤ perm.getD j 0)
        (List.range rows.length)).getD k 0) 0 = k) := by
  haveI hTot : IsTotal Nat (fun i j => perm.getD i 0 ≤ perm.getD j 0) :=
    ⟨fun a b => le_total _ _⟩
  haveI hTrans : IsTrans Nat (fun i j => perm.getD i 0 ≤ perm.getD j 0) :=
    ⟨fun a b c hab hbc => le_trans hab hbc⟩
  set n := rows.length with hn
  set rest := List.insertionSort (fun i j => perm.getD i 0 ≤ perm.getD j 0)
    (List.range n) with hrestdef
  have hrest : rest.Perm (List.range n) := List.perm_insertionSort _ _
  have hrlen : rest.length = n := by rw [hrest.length_eq, List.length_range]
  have hplen : perm.length = n := by rw [hperm.length_eq, List.length_range]
  have hrange_map : (List.range n).map (fun i => perm.getD i 0) = perm :=
    map_getD_range perm 0 n hplen
  have hsorted : List.Sorted (fun i j => perm.getD i 0 ≤ perm.getD j 0) rest :=
    List.sorted_insertionSort _ _
  have hmap_perm : (rest.map (fun i => perm.getD i 0)).Perm (List.range n) := by
    have h1 := hrest.map (fun i => perm.getD i 0)
    rw [hrange_map] at h1
    exact h1.trans hperm
  have hsorted_map : List.Sorted (fun a b => a ≤ b) (rest.map (fun i => perm.getD i 0)) :=
    List.Pairwise.map _ (fun a b hab => hab) hsorted
  have hsorted_range : List.Sorted (fun a b => a ≤ b) (List.range n) :=
    List.Pairwise.imp le_of_lt (List.pairwise_lt_range n)
  have key : rest.map (fun i => perm.getD i 0) = List.range n :=
    List.eq_of_perm_of_sorted hmap_perm hsorted_map hsorted_range
  have hrest_lt : ∀ k, k < n → rest.getD k 0 < n := by
    intro k hk
    have hkr : k < rest.length := by rw [hrlen]; exact hk
    rw [List.getD_eq_getElem rest 0 hkr]
    exact List.mem_range.mp (hrest.mem_iff.mp (List.getElem_mem hkr))
  have hinv : ∀ k, k < n → perm.getD (rest.getD k 0) 0 = k := by
    intro k hk
    have hkr : k < rest.length := by rw [hrlen]; exact hk
    have h2 : (rest.map (fun i => perm.getD i 0))[k]? = (List.range n)[k]? := by rw [key]
    rw [List.getElem?_map, List.getElem?_eq_getElem hkr,
      List.getElem?_eq_getElem (by simpa using hk), List.getElem_range,
      Option.map_some'] at h2
    rw [List.getD_eq_getElem rest 0 hkr]
    exact Option.some_inj.mp h2
  refine ⟨?_, hinv⟩
  apply List.ext_getElem
  · simp [hrlen]
  · intro k h1 h2
    have hk : k < n := by rw [← hrlen]; simpa using h1
    have hkr : k < rest.length := by rw [hrlen]; exact hk
    rw [List.getElem_map, ← List.getD_eq_getElem rest 0 hkr]
    have hgd : (perm.map (fun j => rows.getD j d)).getD (rest.getD k 0) d =
        rows.getD (perm.getD (rest.getD k 0) 0) d := by
      rw [List.getD_eq_getElem _ d
          (by rw [List.length_map, hplen]; exact hrest_lt k hk),
        List.getElem_map, List.getD_eq_getElem perm 0 (by rw [hplen]; exact hrest_lt k hk)]
    rw [hgd, hinv k hk, List.getD_eq_getElem rows d h2]

/-- C3.  For every zero-padded 3D batch with at least one sequence,
`sort_batch_by_length` returns `(sortedBatch, permutationIndex,
restorationIndex)` such that indexing `sortedBatch` by `restorationIndex`
reproduces the original batch exactly, `restorationIndex` being the
inverse of `permutationIndex` (ties in length permitted: the proof uses
only that the permutation index is a permutation of `range n`). -/
theorem sort_batch_by_length_restores (batch : List (List (List Int)))
    (_h : 1 ≤ batch.length) :
    index_select (sort_batch_by_length batch).1 (sort_batch_by_length batch).2.2 = batch ∧
    (∀ k, k < batch.length →
      (sort_batch_by_length batch).2.1.getD
        ((sort_batch_by_length batch).2.2.getD k 0) 0 = k) := by
  have hperm : (List.insertionSort
      (fun i j => (lengths_3d batch).getD j 0 ≤ (lengths_3d batch).getD i 0)
      (List.range batch.length)).Perm (List.range batch.length) :=
    List.perm_insertionSort _ _
  have hmain := restore_by_inverse batch []
    (List.insertionSort
      (fun i j => (lengths_3d batch).getD j 0 ≤ (lengths_3d batch).getD i 0)
      (List.range batch.length)) hperm
  simp only [sort_batch_by_length, index_select]
  exact hmain

/-- Witness for C3 at a concrete three-sequence batch with two equal
(tied) lengths. -/
theorem sort_batch_by_length_restores_witness :
    index_select (sort_batch_by_length [[[1], [0]], [[2], [0]], [[0], [0]]]).1
      (sort_batch_by_length [[[1], [0]], [[2], [0]], [[0], [0]]]).2.2 =
      [[[1], [0]], [[2], [0]], [[0], [0]]] :=
  (sort_batch_by_length_restores [[[1], [0]], [[2], [0]], [[0], [0]]] (by decide)).1

/-! Helper lemmas for the vocabulary-caching pipeline (C1). -/

theorem word_row_length (w : Word) (mct : Nat) : (word_row w mct).length = mct := by
  unfold word_row make_bos make_eos
  split
  · exact make_padded_char_ids_length _ _ _ _ _
  · split
    · exact make_padded_char_ids_length _ _ _ _ _
    · exact make_padded_char_ids_length _ _ _ _ _

theorem word_row_any_pos (w : Word) (mct : Nat) (h : 1 ≤ mct) :
    (word_row w mct).any (fun x => decide (0 < x)) = true := by
  have hmem : END_OF_WORD_CHARACTER + 1 ∈ word_row w mct := by
    unfold word_row make_bos make_eos
    split
    · exact make_padded_char_ids_mem_end _ _ _ _ _ h
    · split
      · exact make_padded_char_ids_mem_end _ _ _ _ _ h
      · exact make_padded_char_ids_mem_end _ _ _ _ _ h
  exact List.any_eq_true.mpr ⟨END_OF_WORD_CHARACTER + 1, hmem, by decide⟩

theorem chunksOfFuel_flatten {β : Type} (k : Nat) :
    ∀ (fuel : Nat) (l : List β), l.length ≤ fuel →
      (chunksOfFuel k fuel l).flatten = l := by
  intro fuel
  induction fuel with
  | zero =>
    intro l hl
    cases l with
    | nil => rfl
    | cons x xs => simp at hl
  | succ fuel ih =>
    intro l hl
    cases l with
    | nil => rfl
    | cons x xs =>
      simp only [chunksOfFuel, List.flatten_cons]
      rw [ih (xs.drop (k - 1)) (by
        simp only [List.length_drop]
        simp only [List.length_cons] at hl
        omega)]
      rw [List.cons_append, List.take_append_drop]

theorem chunksOf_flatten {β : Type} (k : Nat) (l : List β) :
    (chunksOf k l).flatten = l :=
  chunksOfFuel_flatten k l.length l le_rfl

theorem chunksOfFuel_mem {β : Type} (k : Nat) (hk : 1 ≤ k) :
    ∀ (fuel : Nat) (l : List β) (c : List β), l.length ≤ fuel →
      c ∈ chunksOfFuel k fuel l → c ≠ [] ∧ c.length ≤ k := by
  intro fuel
  induction fuel with
  | zero =>
    intro l c hl hc
    cases l with
    | nil => simp [chunksOfFuel] at hc
    | cons x xs => simp at hl
  | succ fuel ih =>
    intro l c hl hc
    cases l with
    | nil => simp [chunksOfFuel] at hc
    | cons x xs =>
      simp only [chunksOfFuel, List.mem_cons] at hc
      rcases hc with hc | hc
      · subst hc
        refine ⟨by simp, ?_⟩
        simp only [List.length_cons, List.length_take]
        omega
      · exact ih (xs.drop (k - 1)) c
          (by
            simp only [List.length_drop]
            simp only [List.length_cons] at hl
            omega) hc

theorem chunksOf_mem {β : Type} (k : Nat) (hk : 1 ≤ k) (l : List β) (c : List β)
    (hc : c ∈ chunksOf k l) : c ≠ [] ∧ c.length ≤ k :=
  chunksOfFuel_mem k hk l.length l c le_rfl hc

theorem range_flatMap_get_toList {ρ : Type} (l : List ρ) :
    (List.range l.length).flatMap (fun t => (l.get? t).toList) = l := by
  induction l with
  | nil => rfl
  | cons a l ih =>
    rw [List.length_cons, List.range_succ_eq_map, List.flatMap_cons]
    have hmap : ((List.range l.length).map (fun i => i + 1)).flatMap
        (fun t => ((a :: l).get? t).toList) =
        (List.range l.length).flatMap (fun t => (l.get? t).toList) := by
      rw [List.flatMap_def, List.map_map, ← List.flatMap_def]
      rfl
    rw [hmap, ih]
    rfl

theorem mapM_option_all_some {β γ : Type} (g : β → Option γ) (gg : β → γ) (l : List β)
    (h : ∀ a ∈ l, g a = some (gg a)) : l.mapM g = some (l.map gg) := by
  induction l with
  | nil => rfl
  | cons a l ih =>
    rw [List.mapM_cons, h a (by simp), ih (fun a ha => h a (by simp [ha]))]
    rfl

/-- `pack_padded_sequence` on a single full-length sequence is just that
sequence's rows, with per-timestep batch size 1. -/
theorem pack_padded_sequence_single (rows : List (List Nat)) :
    pack_padded_sequence [rows] [rows.length] =
      Packed.mk rows (List.replicate rows.length 1) := by
  unfold pack_padded_sequence
  simp only [List.headD_cons]
  rw [show ([rows] : List (List (List Nat))).zip [rows.length] = [(rows, rows.length)]
    from rfl]
  have hdata : (List.range rows.length).flatMap (fun t =>
      ([(rows, rows.length)] : List (List (List Nat) × Nat)).filterMap
        (fun p => if t < p.2 then p.1.get? t else none)) = rows := by
    have hfun : ∀ t ∈ List.range rows.length,
        (fun t => ([(rows, rows.length)] : List (List (List Nat) × Nat)).filterMap
          (fun p => if t < p.2 then p.1.get? t else none)) t =
        (fun t => ((rows.get? t).toList)) t := by
      intro t ht
      simp only [List.filterMap_cons, List.filterMap_nil, if_pos (List.mem_range.mp ht)]
      cases htl : rows.get? t <;> simp [htl, Option.toList]
    rw [List.flatMap_def, List.map_congr_left hfun, ← List.flatMap_def,
      range_flatMap_get_toList]
  have hsizes : (List.range rows.length).map (fun t =>
      ([rows.length] : List Nat).countP (fun l => decide (t < l))) =
      List.replicate rows.length 1 := by
    have hfun : ∀ t ∈ List.range rows.length,
        ([rows.length] : List Nat).countP (fun l => decide (t < l)) = 1 := by
      intro t ht
      simp [List.countP_cons, List.mem_range.mp ht]
    rw [List.map_congr_left hfun, List.map_const', List.length_range]
  simp only [Packed.mk.injEq]
  exact ⟨hdata, hsizes⟩

theorem torchStack_singleton {ρ : Type} (t : List ρ) : torchStack [t] = some [t] :=
  torchStack_ok t [] (by
    intro r hr
    rw [List.mem_singleton.mp hr])

/-- `pad_packed_sequence` on a packed batch of one full-length sequence
recovers the single-row batch. -/
theorem pad_packed_sequence_single {ρ : Type} (data : List ρ) (padv : ρ)
    (h1 : 1 ≤ data.length) :
    (pad_packed_sequence (Packed.mk data (List.replicate data.length 1)) padv).1 =
      [data] := by
  obtain ⟨L, hL⟩ : ∃ L, data.length = L + 1 := ⟨data.length - 1, by omega⟩
  simp only [pad_packed_sequence]
  have hB : (List.replicate data.length (1 : Nat)).headD 0 = 1 := by
    rw [hL, List.replicate_succ, List.headD_cons]
  rw [hB, List.length_replicate, show List.range 1 = [0] from rfl]
  simp only [List.map_cons, List.map_nil]
  congr 1
  have hfun : ∀ t ∈ List.range data.length,
      (if 0 < (List.replicate data.length (1 : Nat)).getD t 0 then
        data.getD (((List.replicate data.length (1 : Nat)).take t).sum + 0) padv
      else padv) = data.getD t padv := by
    intro t ht
    have htlt := List.mem_range.mp ht
    have hget : (List.replicate data.length (1 : Nat)).getD t 0 = 1 := by
      rw [List.getD_eq_getElem?_getD, List.getElem?_replicate, if_pos htlt]
      rfl
    have hsum : ((List.replicate data.length (1 : Nat)).take t).sum = t := by
      rw [List.take_replicate, List.sum_replicate, smul_eq_mul, mul_one]
      omega
    rw [hget, hsum, if_pos (by omega)]
    rw [Nat.add_zero]
  rw [List.map_congr_left hfun, map_getD_range data padv data.length rfl]

/-- `batch_to_char_ids` on a single-sequence batch: no padding rows are
added and the stacking checks pass, giving exactly the per-word rows. -/
theorem batch_to_char_ids_single (chunk : List Word) (mct : Nat) (hne : chunk ≠ []) :
    batch_to_char_ids [chunk] mct =
      some [chunk.map (fun w => word_row w mct)] := by
  obtain ⟨w0, ws, rfl⟩ := List.exists_cons_of_ne_nil hne
  simp only [batch_to_char_ids, List.headD_cons, List.mapM_cons, List.mapM_nil,
    List.length_map, Nat.sub_self, List.replicate_zero, List.append_nil, List.map_cons]
  rw [torchStack_ok (word_row w0 mct) (ws.map (fun word => word_row word mct)) (by
    intro r hr
    rcases List.mem_cons.mp hr with h | h
    · rw [h]
    · obtain ⟨w, hw, rfl⟩ := List.mem_map.mp h
      rw [word_row_length, word_row_length])]
  show torchStack [word_row w0 mct :: ws.map (fun word => word_row word mct)] = _
  rw [torchStack_singleton]

/-- C1.  For every vocabulary (with the two overwritten leading rows in
range), opaque encoder `f`, and chunk size `batch_size ≥ 1`, the caching
pipeline walks the vocabulary in contiguous chunks of at most
`batch_size` in original order and assembles a matrix with exactly one
row per vocabulary entry, in which row 0 is `f` of the
beginning-of-sentence row, row 1 is `f` of the end-of-sentence row (both
at the boundary width), and every row `i ≥ 2` is `f` of the padded
char-ID encoding of vocabulary entry `i`. -/
theorem bind_some_eq {β γ : Type} (a : β) (k : β → Option γ) : (some a >>= k) = k a :=
  rfl

theorem cache_char_cnn_vocab_spec {α : Type} (f : List Nat → α) (padv : α)
    (vocab : List Word) (mct bw bs : Nat)
    (hvocab : 2 ≤ vocab.length) (hbs : 1 ≤ bs) (hmct : 1 ≤ mct) :
    (∀ c ∈ chunksOf bs vocab, c.length ≤ bs) ∧
    (chunksOf bs vocab).flatten = vocab ∧
    (cache_char_cnn_vocab f padv vocab mct bw bs).isSome ∧
    ((cache_char_cnn_vocab f padv vocab mct bw bs).getD []).length = vocab.length ∧
    ((cache_char_cnn_vocab f padv vocab mct bw bs).getD [])[0]? =
      some (f (make_bos bw)) ∧
    ((cache_char_cnn_vocab f padv vocab mct bw bs).getD [])[1]? =
      some (f (make_eos bw)) ∧
    (∀ i, (hi : i < vocab.length) → 2 ≤ i →
      ((cache_char_cnn_vocab f padv vocab mct bw bs).getD [])[i]? =
        some (f (word_row (vocab.get ⟨i, hi⟩) mct))) := by
  have hchunk : ∀ c ∈ chunksOf bs vocab,
      (batch_to_char_ids [c] mct >>= fun char_ids =>
        pure ((unpack_outputs (Packed.mk ((pack_inputs char_ids).data.map f)
          (pack_inputs char_ids).batch_sizes) padv true).1.headD [])) =
      some (c.map (fun w => f (word_row w mct))) := by
    intro c hc
    obtain ⟨hcne, hclen⟩ := chunksOf_mem bs hbs vocab c hc
    rw [batch_to_char_ids_single c mct hcne, bind_some_eq]
    have hpack : pack_inputs [c.map (fun w => word_row w mct)] =
        Packed.mk (c.map (fun w => word_row w mct))
          (List.replicate (c.map (fun w => word_row w mct)).length 1) := by
      have hlen : ([c.map (fun w => word_row w mct)].map (fun r =>
          r.countP (fun t => t.any (fun x => decide (0 < x))))) =
          [(c.map (fun w => word_row w mct)).length] := by
        simp only [List.map_cons, List.map_nil]
        congr 1
        apply List.countP_eq_length.mpr
        intro r hr
        obtain ⟨w, hw, rfl⟩ := List.mem_map.mp hr
        exact word_row_any_pos w mct hmct
      simp only [pack_inputs]
      rw [hlen, pack_padded_sequence_single]
    rw [hpack]
    simp only [unpack_outputs, if_pos]
    rw [show (List.replicate (c.map (fun w => word_row w mct)).length (1 : Nat)) =
        List.replicate ((c.map (fun w => word_row w mct)).map f).length 1 from by simp]
    rw [pad_packed_sequence_single _ padv (by
      simp only [List.length_map]
      exact List.length_pos.mpr hcne)]
    rw [List.headD_cons, List.map_map]
    rfl
  have hcache : cache_char_cnn_vocab f padv vocab mct bw bs =
      some (((vocab.map (fun w => f (word_row w mct))).set 0
        (f (make_bos bw))).set 1 (f (make_eos bw))) := by
    simp only [cache_char_cnn_vocab]
    rw [mapM_option_all_some _ (fun c => c.map (fun w => f (word_row w mct)))
      (chunksOf bs vocab) hchunk, bind_some_eq]
    rw [show get_bos_eos_token_repr f bw = (f (make_bos bw), f (make_eos bw)) from rfl]
    rw [← List.map_flatten, chunksOf_flatten bs vocab]
    rfl
  refine ⟨fun c hc => (chunksOf_mem bs hbs vocab c hc).2,
    chunksOf_flatten bs vocab, ?_, ?_, ?_, ?_, ?_⟩
  · rw [hcache]
    rfl
  · rw [hcache, Option.getD_some]
    simp
  · rw [hcache, Option.getD_some, List.getElem?_set, if_neg (by omega),
      List.getElem?_set, if_pos rfl,
      if_pos (by simp only [List.length_map]; omega)]
  · rw [hcache, Option.getD_some, List.getElem?_set, if_pos rfl,
      if_pos (by simp only [List.length_set, List.length_map]; omega)]
  · intro i hi h2i
    rw [hcache, Option.getD_some, List.getElem?_set, if_neg (by omega),
      List.getElem?_set, if_neg (by omega), List.getElem?_map,
      List.getElem?_eq_getElem hi, Option.map_some']
    rw [List.get_eq_getElem]

/-- Witness for C1 at the five-entry vocabulary of the spec's end-to-end
example (`<S>`, `</S>`, `<UNK>`, `the`, `cat` as UTF-8 bytes), chunk size
2, encoder `f = id` on rows of width 4, boundary width 3: the matrix has
5 rows and row 3 is the padded encoding of `the`. -/
theorem cache_char_cnn_vocab_spec_witness :
    ((cache_char_cnn_vocab (fun r => r) ([] : List Nat)
      [bosWord, eosWord, unkWord, [116, 104, 101], [99, 97, 116]] 4 3 2).getD
        []).length = 5 ∧
    ((cache_char_cnn_vocab (fun r => r) ([] : List Nat)
      [bosWord, eosWord, unkWord, [116, 104, 101], [99, 97, 116]] 4 3 2).getD
        [])[0]? = some (make_bos 3) ∧
    ((cache_char_cnn_vocab (fun r => r) ([] : List Nat)
      [bosWord, eosWord, unkWord, [116, 104, 101], [99, 97, 116]] 4 3 2).getD
        [])[3]? = some [259, 117, 105, 260] :=
  ⟨(cache_char_cnn_vocab_spec (fun r => r) [] [bosWord, eosWord, unkWord,
      [116, 104, 101], [99, 97, 116]] 4 3 2 (by decide) (by decide) (by decide)).2.2.2.1,
    (cache_char_cnn_vocab_spec (fun r => r) [] [bosWord, eosWord, unkWord,
      [116, 104, 101], [99, 97, 116]] 4 3 2 (by decide) (by decide)
      (by decide)).2.2.2.2.1,
    ((cache_char_cnn_vocab_spec (fun r => r) [] [bosWord, eosWord, unkWord,
      [116, 104, 101], [99, 97, 116]] 4 3 2 (by decide) (by decide)
      (by decide)).2.2.2.2.2.2 3 (by decide) (by decide)).trans (by decide)⟩

end FastElmo
